import Mathlib

/-!
Verification development for the MSP research pipeline.

Python strings are modelled as lists of character codepoints (`PyStr`),
faithful to the source for the ASCII range the pipeline manipulates.
Pure functions of the source become Lean functions; the DuckDB load in
`database.py` becomes explicit state passing over in-memory tables; the
HTTP/cache collaborators become function-valued parameters, matching the
spec's boundary contracts.
-/

/-- A Python string, modelled as its list of character codepoints. -/
abbrev PyStr := List Nat

/-- Convert a Lean string literal to the codepoint model (ASCII-faithful). -/
def s2p (s : String) : PyStr := s.data.map Char.toNat

/-- Python regex `\s` on ASCII: space, tab, newline, CR, vertical tab, form feed. -/
def isWs (c : Nat) : Bool :=
  decide (c = 32 ∨ c = 9 ∨ c = 10 ∨ c = 13 ∨ c = 11 ∨ c = 12)

/-- Regex class `[a-zA-Z0-9]`. -/
def isAlnum (c : Nat) : Bool :=
  decide ((48 ≤ c ∧ c ≤ 57) ∨ (65 ≤ c ∧ c ≤ 90) ∨ (97 ≤ c ∧ c ≤ 122))

/-- Python `str.lower` on the ASCII range: map `A`-`Z` to `a`-`z`. -/
def pyLower (c : Nat) : Nat :=
  if 65 ≤ c ∧ c ≤ 90 then c + 32 else c

/-- Lowercase a whole string (`str.lower`). -/
def lowerStr (l : PyStr) : PyStr := l.map pyLower

/-- Python `re.sub(pattern+, rep, s)` for a single-character class: replace each
maximal run of characters satisfying `p` by the single character `rep`. -/
def subRuns (p : Nat → Bool) (rep : Nat) : PyStr → PyStr
  | [] => []
  | [c] => if p c then [rep] else [c]
  | c :: d :: rest =>
    if p c then
      if p d then subRuns p rep (d :: rest)
      else rep :: subRuns p rep (d :: rest)
    else c :: subRuns p rep (d :: rest)

/-- Python `re.sub(r"\s+", " ", s)`. -/
def collapseWs (l : PyStr) : PyStr := subRuns isWs 32 l

/-- Python `str.strip()`: drop leading and trailing whitespace. -/
def pyStrip (l : PyStr) : PyStr :=
  ((l.dropWhile isWs).reverse.dropWhile isWs).reverse

/-- Name canonicalizer `_normalize_name` of `msp_pipeline/clean.py` (the copy in
`msp_pipeline/database.py` is textually identical):
`s = (name or "").strip().lower(); s = re.sub(r"\s+", " ", s)`.
`none` models Python `None` (absent input), handled by `name or ""`. -/
def _normalize_name (name : Option PyStr) : PyStr :=
  collapseWs (lowerStr (pyStrip (name.getD [])))

/-- SQL normalization used inside `populate_companies_people`:
`lower(regexp_replace(name,'\s+',' ','g'))` — note: no strip, unlike the
Python `_normalize_name`. -/
def sqlNormalize (name : PyStr) : PyStr :=
  lowerStr (collapseWs name)

/-- Does the string start with a whitespace character? -/
def startsWs : PyStr → Bool
  | [] => false
  | c :: _ => isWs c

/-- Does the string end with a whitespace character? -/
def endsWs (l : PyStr) : Bool := startsWs l.reverse

/-- The maximal whitespace-separated chunks of a string, in order. -/
def words : PyStr → List PyStr
  | [] => []
  | [c] => if isWs c then [] else [[c]]
  | c :: d :: rest =>
    if isWs c then words (d :: rest)
    else if isWs d then [c] :: words (d :: rest)
    else
      match words (d :: rest) with
      | [] => [[c]]
      | w :: ws => (c :: w) :: ws

/-- Join chunks with a single ASCII space. -/
def joinW : List PyStr → PyStr
  | [] => []
  | [w] => w
  | w :: ws => w ++ 32 :: joinW ws

/-- The case-folded token sequence of a raw name: two names are equal here
exactly when they differ only in letter casing, leading/trailing whitespace,
or internal whitespace runs. -/
def tokensLower (l : PyStr) : List PyStr := (words l).map lowerStr

/-!
Record Deduplicator: `dedupe_summaries` of `msp_pipeline/clean.py`.
A CSV row is its name field plus the remaining header-keyed fields; the
`seen` dict is an insertion-ordered association list, as Python dicts are.
-/

/-- A row of the summaries CSV: the company-name field plus the other fields. -/
structure SRow where
  name : PyStr
  fields : List (PyStr × PyStr)
deriving DecidableEq

/-- Association-list lookup (Python `key in seen` / `seen[key]`). -/
def lookupA : List (PyStr × SRow) → PyStr → Option SRow
  | [], _ => none
  | (k, v) :: rest, key => if k = key then some v else lookupA rest key

/-- Python dict update `seen[key] = row` when `key` is present: the entry keeps
its original position. -/
def replaceA : List (PyStr × SRow) → PyStr → SRow → List (PyStr × SRow)
  | [], _, _ => []
  | (k, v) :: rest, key, row =>
    if k = key then (k, row) :: rest else (k, v) :: replaceA rest key row

/-- One iteration of the `for row in reader` loop of `dedupe_summaries`. -/
def dedupeStep (keep : PyStr) (st : Nat × List (PyStr × SRow)) (row : SRow) :
    Nat × List (PyStr × SRow) :=
  let key := _normalize_name (some row.name)
  if key = [] then (st.1 + 1, st.2)
  else if (lookupA st.2 key).isSome then
    if keep = s2p "last" then (st.1 + 1, replaceA st.2 key row)
    else (st.1 + 1, st.2)
  else (st.1 + 1, st.2 ++ [(key, row)])

/-- First-defined-wins choice between two optional values (the shape of a
dict lookup through an append, and of `find?` through an append). -/
def orFind {α : Type} : Option α → Option α → Option α
  | some v, _ => some v
  | none, x => x

/-- Core of `dedupe_summaries`: fold the rows, returning
(`total_rows`, the `seen` dict). The function's CSV return value is
(`total_rows`, `len(seen)`) and the written rows are `seen.values()`. -/
def dedupe_summaries (keep : PyStr) (rows : List SRow) : Nat × List (PyStr × SRow) :=
  rows.foldl (dedupeStep keep) (0, [])

/-!
Relational Loader: `populate_companies_people` of `msp_pipeline/database.py`.
The DuckDB tables become in-memory lists; `company_id_seq` becomes an explicit
next-id counter.  The SQL normalization (`sqlNormalize`) is the one in the
insert statements, which — unlike the Python `_normalize_name` — does not strip.
-/

/-- A row of the companies CSV (`comp_src` view, minus the derived column). -/
structure CompanySrc where
  name : PyStr
  website : PyStr
  linkedin : PyStr
  phone : PyStr
  address : PyStr
  summary : PyStr
  top_urls : PyStr
deriving DecidableEq

/-- A row of the `companies` table. -/
structure CompanyRow where
  id : Nat
  name : PyStr
  name_norm : PyStr
  website : PyStr
  linkedin : PyStr
  phone : PyStr
  address : PyStr
  summary : PyStr
  top_urls : PyStr
deriving DecidableEq

/-- The `companies` row inserted for a source row. -/
def mkCompanyRow (id : Nat) (r : CompanySrc) : CompanyRow :=
  ⟨id, r.name, sqlNormalize r.name, r.website, r.linkedin, r.phone, r.address,
    r.summary, r.top_urls⟩

/-- `on conflict(name_norm) do update set name_norm=excluded.name_norm,
website=excluded.website, summary=excluded.summary, top_urls=excluded.top_urls`:
rewrite the (unique) row holding `key`.  `name`, `linkedin`, `phone`, `address`
and `id` are not touched. -/
def updCompanies (key : PyStr) (r : CompanySrc) : List CompanyRow → List CompanyRow
  | [] => []
  | c :: rest =>
    if c.name_norm = key then
      { c with name_norm := key, website := r.website, summary := r.summary,
               top_urls := r.top_urls } :: rest
    else c :: updCompanies key r rest

/-- Upsert of a single companies row: insert if the identity key is absent,
else run the conflict update.  State is (table, next sequence value). -/
def upsertCompanyStep (st : List CompanyRow × Nat) (r : CompanySrc) :
    List CompanyRow × Nat :=
  let key := sqlNormalize r.name
  if st.1.any (fun c => decide (c.name_norm = key)) then
    (updCompanies key r st.1, st.2)
  else
    (st.1 ++ [mkCompanyRow st.2 r], st.2 + 1)

/-- The companies half of `populate_companies_people`: upsert every CSV row. -/
def upsertCompanies (st : List CompanyRow × Nat) (rows : List CompanySrc) :
    List CompanyRow × Nat :=
  rows.foldl upsertCompanyStep st

/-- The table produced by inserting a run of conflict-free rows with
consecutive sequence values starting at `n`. -/
def insertAllFrom (n : Nat) : List CompanySrc → List CompanyRow
  | [] => []
  | r :: rest => mkCompanyRow n r :: insertAllFrom (n + 1) rest

/-- A row of the people CSV (`ppl_src` view, minus the derived column). -/
structure PersonSrc where
  company : PyStr
  profile_url : PyStr
  title : PyStr
  snippet : PyStr
deriving DecidableEq

/-- A row of the `people` table (the `query_used` column is always null and the
`crawled_at` default is a wall-clock timestamp, both outside the model). -/
structure PersonRow where
  company_id : Option Nat
  profile_url : PyStr
  title : PyStr
  snippet : PyStr
deriving DecidableEq

/-- The `ppl_join` view: inner join of people rows with `comp_ids` on the
normalized name.  `name_norm` is unique in `companies`, so at most one company
matches and `find?` is faithful; a person row with no match produces nothing. -/
def pplJoin (companies : List CompanyRow) (src : List PersonSrc) : List PersonRow :=
  src.filterMap fun p =>
    match companies.find? (fun c => decide (c.name_norm = sqlNormalize p.company)) with
    | some c => some ⟨some c.id, p.profile_url, p.title, p.snippet⟩
    | none => none

/-- The `row_number() over (partition by profile_url) ... where rn = 1` dedup
combined with `on conflict(profile_url) do nothing`: keep the first joined row
per profile_url whose url is not already taken. -/
def dedupByUrl : List PersonRow → List PyStr → List PersonRow
  | [], _ => []
  | p :: rest, seen =>
    if p.profile_url ∈ seen then dedupByUrl rest seen
    else p :: dedupByUrl rest (p.profile_url :: seen)

/-- The people half of `populate_companies_people`: insert the deduplicated
joined rows, skipping urls already present in the table. -/
def insertPeople (table : List PersonRow) (joined : List PersonRow) : List PersonRow :=
  table ++ dedupByUrl joined (table.map (·.profile_url))

/-- The full result of a `populate_companies_people` run. -/
structure PopulateResult where
  companies : List CompanyRow
  nextId : Nat
  people : List PersonRow
  companies_loaded : Nat
  people_loaded : Nat
deriving DecidableEq

/-- `populate_companies_people` of `msp_pipeline/database.py`, over the tables
found in the database it opens (empty on a fresh database).  The returned
counts are `count(*) from comp_src` and `count(*) from ppl_join`, exactly as
in the source. -/
def populate_companies_people (initC : List CompanyRow) (initN : Nat)
    (initP : List PersonRow) (compSrc : List CompanySrc) (pplSrc : List PersonSrc) :
    PopulateResult :=
  let st := upsertCompanies (initC, initN) compSrc
  let joined := pplJoin st.1 pplSrc
  ⟨st.1, st.2, insertPeople initP joined, compSrc.length, joined.length⟩

/-!
Evidence Collector for people discovery: `msp_pipeline/people.py`.
The Google CSE provider and the on-disk json cache become function-valued
parameters (collaborators per the spec); a search result is its
`link`/`title`/`snippet` fields.
-/

/-- Is `pat` a contiguous substring of `s` (Python `pat in s`)? -/
def isSubstr (pat : PyStr) : PyStr → Bool
  | [] => decide (pat = [])
  | c :: rest => pat.isPrefixOf (c :: rest) || isSubstr pat rest

/-- Drop a literal prefix, or fail. -/
def dropPre (pre s : PyStr) : Option PyStr :=
  if pre.isPrefixOf s then some (s.drop pre.length) else none

namespace People

/-- A Google CSE result item (`link`, `title`, `snippet`). -/
structure Item where
  link : PyStr
  title : PyStr
  snippet : PyStr
deriving DecidableEq

/-- A discovered-profile output row of `discover_people`. -/
structure ProfileRow where
  company : PyStr
  website : PyStr
  profile_url : PyStr
  title : PyStr
  snippet : PyStr
deriving DecidableEq

/-- `cache_key` of `people.py`: `re.sub(r"[^a-zA-Z0-9]+", "-", s)[:150]`. -/
def cache_key (s : PyStr) : PyStr :=
  (subRuns (fun c => !isAlnum c) 45 s).take 150

/-- `PROFILE_RE.match(url)` for
`^https?://(?:www\.)?linkedin\.com/in/[^/?#]+` with `re.I`: the regex pieces
are pairwise non-overlapping prefixes, so sequential stripping is faithful. -/
def profileMatch (url : PyStr) : Bool :=
  let u := lowerStr url
  let afterScheme :=
    match dropPre (s2p "https://") u with
    | some r => some r
    | none => dropPre (s2p "http://") u
  match afterScheme with
  | none => false
  | some r =>
    let r2 := match dropPre (s2p "www.") r with
      | some x => x
      | none => r
    match dropPre (s2p "linkedin.com/in/") r2 with
    | none => false
    | some rest =>
      match rest with
      | [] => false
      | c :: _ => !(c == 47 || c == 63 || c == 35)

/-- `EXCLUDE_RE.search(url)`: one of the non-profile path fragments occurs
(case-insensitively) in the url. -/
def excludeMatch (url : PyStr) : Bool :=
  [s2p "/pub/", s2p "/jobs/", s2p "/posts/", s2p "/events/", s2p "/learning/",
   s2p "/pulse/", s2p "/company/", s2p "/school/"].any
    (fun pat => isSubstr pat (lowerStr url))

/-- `is_profile` of `people.py`. -/
def is_profile (url : PyStr) : Bool :=
  if url = [] then false
  else if excludeMatch url then false
  else profileMatch url

/-- `likely_employee` of `people.py`: the company name occurs
case-insensitively in title + " " + snippet. -/
def likely_employee (item : Item) (company : PyStr) : Bool :=
  isSubstr (lowerStr company) (lowerStr (item.title ++ 32 :: item.snippet))

/-- `build_queries` of `people.py`: up to three query strings (name-quoted,
domain-quoted, name-with-exclusions), capped by `[:3]`. -/
def build_queries (company domain : PyStr) : List PyStr :=
  ((if company ≠ [] then
      [s2p "site:linkedin.com/in \"" ++ company ++ s2p "\""]
    else []) ++
   (if domain ≠ [] then
      [s2p "site:linkedin.com/in \"" ++ domain ++ s2p "\""]
    else []) ++
   (if company ≠ [] then
      [s2p "site:linkedin.com/in " ++ company ++ s2p " -jobs -job -hiring"]
    else [])).take 3

/-- The per-query fetch `res = cache_load(key) or google_cse(q)`: a missing or
unparseable cache entry is `none`; a cached empty list is falsy in Python, so
`or` falls through to the provider. -/
def fetchRes (cache : PyStr → Option (List Item)) (provider : PyStr → List Item)
    (q : PyStr) : List Item :=
  match cache (cache_key q) with
  | some r => if r = [] then provider q else r
  | none => provider q

/-- Whether the expression `cache_load(key) or google_cse(q)` evaluates its
right operand, i.e. whether the provider is called for this query. -/
def fetchCallsProvider (cache : PyStr → Option (List Item)) (q : PyStr) : Bool :=
  match cache (cache_key q) with
  | some r => decide (r = [])
  | none => true

/-- The inner `for item in res` loop of `discover_people`: filter, dedupe by
url against `seen`, append to the output, and `break` once `len(seen)` reaches
`per_company`. -/
def scanItems (company website : PyStr) (cap : Nat) :
    List Item → List PyStr → List ProfileRow → List PyStr × List ProfileRow
  | [], seen, out => (seen, out)
  | item :: rest, seen, out =>
    if is_profile item.link = false ∨ item.link ∈ seen then
      scanItems company website cap rest seen out
    else if likely_employee item company = false then
      scanItems company website cap rest seen out
    else
      let seen' := seen ++ [item.link]
      let out' := out ++ [⟨company, website, item.link, item.title, item.snippet⟩]
      if cap ≤ seen'.length then (seen', out')
      else scanItems company website cap rest seen' out'

/-- The outer `for q in build_queries(...)` loop: every query result is scanned
in order; nothing stops the loop when the cap has been reached. -/
def collectQueries (company website : PyStr) (cap : Nat) :
    List (List Item) → List PyStr × List ProfileRow → List PyStr × List ProfileRow
  | [], st => st
  | res :: rest, st =>
    collectQueries company website cap rest (scanItems company website cap res st.1 st.2)

/-- Per-company body of `discover_people`:  `company` models the stripped name
field, `domain` the value extracted from the website url by the caller's
regex (that extraction is outside the claims).  `cap` is `per_company`. -/
def discover_people_company (cache : PyStr → Option (List Item))
    (provider : PyStr → List Item) (company website domain : PyStr) (cap : Nat) :
    List PyStr × List ProfileRow :=
  collectQueries company website cap
    ((build_queries company domain).map (fetchRes cache provider)) ([], [])

end People

/-!
`north_america_msp_search_and_summarize.py` (namespace `NA`) and
`scripts/msp_search_and_summarize.py` (namespace `Scripts`): the cached
search front-end and the OpenAI summarization adapter.
-/

/-- Outcome of the `requests.post` call to the OpenAI API as the surrounding
code observes it: a raised exception (any `Exception`, including failures
while reading the response body), or a response with a status code, a body
text, and the extracted message content. -/
inductive HttpOutcome where
  | exc (msg : PyStr)
  | resp (status : Nat) (text : PyStr) (content : PyStr)
deriving DecidableEq

/-- Decimal rendering of the integer status code interpolated into the
error f-string. -/
def natPy (n : Nat) : PyStr := (Nat.toDigits 10 n).map Char.toNat

/-- Overwrite one cache entry: models a successful `cache_save(key, data)`. -/
def cacheStore (cache : PyStr → Option (List People.Item)) (key : PyStr)
    (v : List People.Item) : PyStr → Option (List People.Item) :=
  fun k => if k = key then some v else cache k

namespace NA

/-- `cache_key` of the north-america script: truncation at 120, not 150. -/
def cache_key (s : PyStr) : PyStr :=
  (subRuns (fun c => !isAlnum c) 45 s).take 120

/-- The cache key used by `search_web` for a query. -/
def swKey (q : PyStr) : PyStr := cache_key (s2p "q-" ++ q)

/-- `search_web`: return the cached value when the entry exists — even when it
is the empty list — and call the provider only on a miss.  The identically
written `search_web` of `scripts/msp_search_and_summarize.py` is covered by
the same definition. -/
def search_web (cache : PyStr → Option (List People.Item))
    (provider : PyStr → List People.Item) (q : PyStr) : List People.Item :=
  match cache (swKey q) with
  | some c => c
  | none => provider q

/-- Whether `search_web` reaches the `search_google` call. -/
def searchCallsProvider (cache : PyStr → Option (List People.Item)) (q : PyStr) :
    Bool :=
  (cache (swKey q)).isNone

/-- The fixed sentinel for a missing credential. -/
def missingSentinel : PyStr := s2p "Missing OPENAI_API_KEY; cannot summarize."

/-- `summarize_with_openai` of the north-america script.  `key` is the
stripped `OPENAI_API_KEY` value (empty when unset); the evidence-item
truncation feeds only the outgoing request, so the returned value depends on
the call outcome alone. -/
def summarize_with_openai (key : PyStr) (o : HttpOutcome) : PyStr :=
  if key = [] then missingSentinel
  else
    match o with
    | .exc m => s2p "OpenAI request failed: " ++ m
    | .resp st txt content =>
      if st ≠ 200 then s2p "OpenAI error " ++ natPy st ++ s2p ": " ++ txt.take 200
      else pyStrip content

end NA

namespace Scripts

/-- The fixed sentinel for a missing credential (scripts variant). -/
def missingSentinel : PyStr :=
  s2p "Missing OPENAI_API_KEY in environment; cannot summarize."

/-- `summarize_with_openai` of `scripts/msp_search_and_summarize.py`: like the
north-america variant, plus a fallback text when the stripped content is
empty. -/
def summarize_with_openai (key : PyStr) (o : HttpOutcome) : PyStr :=
  if key = [] then missingSentinel
  else
    match o with
    | .exc m => s2p "OpenAI request failed: " ++ m
    | .resp st txt content =>
      if st ≠ 200 then s2p "OpenAI error " ++ natPy st ++ s2p ": " ++ txt.take 200
      else
        let c := pyStrip content
        if c = [] then s2p "No summary generated." else c

end Scripts

/-!
Helper lemmas: the Name Canonicalizer as a function of the case-folded
whitespace-token decomposition.
-/

theorem isWs_pyLower (c : Nat) : isWs (pyLower c) = isWs c := by
  unfold isWs pyLower
  by_cases h : 65 ≤ c ∧ c ≤ 90
  · rw [if_pos h]
    have h1 := h.1
    have h2 := h.2
    rw [decide_eq_decide]
    omega
  · rw [if_neg h]

theorem pyLower_idem (c : Nat) : pyLower (pyLower c) = pyLower c := by
  by_cases h : 65 ≤ c ∧ c ≤ 90
  · have h1 : pyLower c = c + 32 := if_pos h
    rw [h1]
    have h2 := h.2
    exact if_neg (by omega)
  · have h1 : pyLower c = c := if_neg h
    rw [h1]
    exact h1

theorem lowerStr_idem (l : PyStr) : lowerStr (lowerStr l) = lowerStr l := by
  induction l with
  | nil => rfl
  | cons c rest ih => simp only [lowerStr, List.map_cons] at ih ⊢; rw [pyLower_idem, ih]

theorem lowerStr_ne_nil {w : PyStr} (h : w ≠ []) : lowerStr w ≠ [] := by
  cases w with
  | nil => exact absurd rfl h
  | cons c rest => simp [lowerStr]

theorem startsWs_cons (c : Nat) (rest : PyStr) : startsWs (c :: rest) = isWs c := rfl

theorem startsWs_append_of_ne_nil {a : PyStr} (b : PyStr) (h : a ≠ []) :
    startsWs (a ++ b) = startsWs a := by
  cases a with
  | nil => exact absurd rfl h
  | cons c rest => rfl

theorem startsWs_dropWhile (l : PyStr) : startsWs (l.dropWhile isWs) = false := by
  induction l with
  | nil => rfl
  | cons c rest ih =>
    rw [List.dropWhile_cons]
    split
    · exact ih
    · next h => exact Bool.not_eq_true _ ▸ Bool.of_not_eq_true h

theorem startsWs_lowerStr (l : PyStr) : startsWs (lowerStr l) = startsWs l := by
  cases l with
  | nil => rfl
  | cons c rest => simp only [lowerStr, List.map_cons, startsWs_cons, isWs_pyLower]

theorem endsWs_cons (c : Nat) (rest : PyStr) :
    endsWs (c :: rest) = if rest.isEmpty then isWs c else endsWs rest := by
  cases rest with
  | nil => rfl
  | cons d rest' =>
    unfold endsWs
    rw [List.reverse_cons, startsWs_append_of_ne_nil]
    · rfl
    · simp

theorem endsWs_lowerStr (l : PyStr) : endsWs (lowerStr l) = endsWs l := by
  unfold endsWs
  rw [show (lowerStr l).reverse = lowerStr l.reverse by
        simp [lowerStr, List.map_reverse]]
  exact startsWs_lowerStr l.reverse

theorem endsWs_true_of_allWs {l : PyStr} (hne : l ≠ []) (h : ∀ c ∈ l, isWs c = true) :
    endsWs l = true := by
  unfold endsWs
  cases hr : l.reverse with
  | nil => exact absurd (List.reverse_eq_nil_iff.mp hr) hne
  | cons x xs =>
    rw [startsWs_cons]
    exact h x (List.mem_reverse.mp (hr ▸ List.mem_cons_self x xs))

theorem words_cons_ws {c : Nat} (rest : PyStr) (h : isWs c = true) :
    words (c :: rest) = words rest := by
  cases rest with
  | nil => simp [words, h]
  | cons d rest' => simp [words, h]

theorem words_allWs : ∀ l : PyStr, words l = [] ↔ ∀ c ∈ l, isWs c = true := by
  intro l
  induction l with
  | nil => simp [words]
  | cons c rest ih =>
    cases rest with
    | nil =>
      by_cases h : isWs c = true
      · simp [words, h]
      · simp [words, h, Bool.of_not_eq_true h]
    | cons d rest' =>
      by_cases h : isWs c = true
      · rw [words_cons_ws _ h]
        simp only [List.mem_cons, ih]
        constructor
        · rintro hall x (rfl | hx)
          · exact h
          · exact hall x hx
        · intro hall x hx
          exact hall x (Or.inr hx)
      · constructor
        · intro hw
          exfalso
          simp only [words, if_neg h] at hw
          split at hw
          · exact List.cons_ne_nil _ _ hw
          · split at hw <;> exact List.cons_ne_nil _ _ hw
        · intro hall
          exact absurd (hall c (List.mem_cons_self _ _)) h

theorem words_ne_nil_of_endsWs {l : PyStr} (hne : l ≠ []) (h : endsWs l = false) :
    words l ≠ [] := by
  intro hw
  have hall := (words_allWs l).mp hw
  rw [endsWs_true_of_allWs hne hall] at h
  simp at h

theorem words_cons_nonws_ne_nil {d : Nat} (m : PyStr) (h : isWs d = false) :
    words (d :: m) ≠ [] := by
  cases m with
  | nil => simp [words, h]
  | cons e m' =>
    simp only [words, h, Bool.false_eq_true, if_false]
    split
    · exact List.cons_ne_nil _ _
    · split <;> exact List.cons_ne_nil _ _

theorem words_props : ∀ (l : PyStr), ∀ w ∈ words l, w ≠ [] ∧ ∀ c ∈ w, isWs c = false := by
  intro l
  induction l with
  | nil => simp [words]
  | cons c rest ih =>
    cases rest with
    | nil =>
      intro w hw
      by_cases h : isWs c = true
      · simp [words, h] at hw
      · simp only [words, if_neg h, List.mem_singleton] at hw
        subst hw
        refine ⟨List.cons_ne_nil _ _, ?_⟩
        intro x hx
        rw [List.mem_singleton] at hx
        subst hx
        exact Bool.of_not_eq_true h
    | cons d rest' =>
      intro w hw
      by_cases h : isWs c = true
      · rw [words_cons_ws _ h] at hw
        exact ih w hw
      · simp only [words, if_neg h] at hw
        by_cases hd : isWs d = true
        · rw [if_pos hd] at hw
          rcases List.mem_cons.mp hw with rfl | hw'
          · refine ⟨List.cons_ne_nil _ _, ?_⟩
            intro x hx
            rw [List.mem_singleton] at hx
            subst hx
            exact Bool.of_not_eq_true h
          · exact ih w hw'
        · rw [if_neg hd] at hw
          cases hws : words (d :: rest') with
          | nil => exact absurd hws (words_cons_nonws_ne_nil rest' (Bool.of_not_eq_true hd))
          | cons w0 ws0 =>
            rw [hws] at hw
            rcases List.mem_cons.mp hw with rfl | hw'
            · have h0 := ih w0 (hws ▸ List.mem_cons_self w0 ws0)
              refine ⟨List.cons_ne_nil _ _, ?_⟩
              intro x hx
              rcases List.mem_cons.mp hx with rfl | hx'
              · exact Bool.of_not_eq_true h
              · exact h0.2 x hx'
            · exact ih w (hws ▸ List.mem_cons_of_mem w0 hw')

theorem words_dropWhile (l : PyStr) : words (l.dropWhile isWs) = words l := by
  induction l with
  | nil => rfl
  | cons c rest ih =>
    rw [List.dropWhile_cons]
    split
    · next h => rw [ih, words_cons_ws _ h]
    · rfl

theorem words_append_allWs {m : PyStr} (hm : ∀ c ∈ m, isWs c = true) :
    ∀ l : PyStr, words (l ++ m) = words l := by
  intro l
  induction l with
  | nil =>
    rw [List.nil_append]
    exact (words_allWs m).mpr hm
  | cons c l' ih =>
    cases l' with
    | nil =>
      rw [List.singleton_append]
      cases m with
      | nil => rfl
      | cons e m' =>
        have he : isWs e = true := hm e (List.mem_cons_self _ _)
        by_cases h : isWs c = true
        · rw [words_cons_ws _ h, words_cons_ws _ he]
          simp only [words, if_pos h]
          exact (words_allWs m').mpr fun x hx => hm x (List.mem_cons_of_mem e hx)
        · simp only [words, if_neg h, if_pos he]
          rw [words_cons_ws _ he]
          rw [(words_allWs m').mpr fun x hx => hm x (List.mem_cons_of_mem e hx)]
    | cons d l'' =>
      rw [List.cons_append] at ih ⊢
      rw [List.cons_append]
      by_cases h : isWs c = true
      · rw [words_cons_ws _ h, words_cons_ws _ h, ih]
      · simp only [words, if_neg h, ih]

theorem words_lowerStr : ∀ l : PyStr, words (lowerStr l) = (words l).map lowerStr := by
  intro l
  induction l with
  | nil => rfl
  | cons c rest ih =>
    cases rest with
    | nil =>
      simp only [lowerStr, List.map_cons, List.map_nil]
      by_cases h : isWs c = true
      · simp [words, h, isWs_pyLower]
      · simp only [words, isWs_pyLower, if_neg h, List.map_cons, List.map_nil]
        rfl
    | cons d rest' =>
      simp only [lowerStr, List.map_cons] at ih ⊢
      by_cases h : isWs c = true
      · rw [words_cons_ws _ h]
        rw [words_cons_ws _ (by rw [isWs_pyLower]; exact h)]
        exact ih
      · have h' : ¬ isWs (pyLower c) = true := by rw [isWs_pyLower]; exact h
        by_cases hd : isWs d = true
        · have hd' : isWs (pyLower d) = true := by rw [isWs_pyLower]; exact hd
          simp only [words, if_neg h, if_neg h', if_pos hd, if_pos hd']
          rw [ih]
          simp [lowerStr]
        · have hd' : ¬ isWs (pyLower d) = true := by rw [isWs_pyLower]; exact hd
          simp only [words, if_neg h, if_neg h', if_neg hd, if_neg hd']
          rw [ih]
          cases hws : words (d :: rest') with
          | nil => simp [hws, lowerStr]
          | cons w0 ws0 => simp [hws, lowerStr]

theorem joinW_cons₂ (w x : PyStr) (r : List PyStr) :
    joinW (w :: x :: r) = w ++ 32 :: joinW (x :: r) := rfl

theorem subRuns_cons₂ (p : Nat → Bool) (rep c d : Nat) (rest : PyStr) :
    subRuns p rep (c :: d :: rest) =
      if p c then
        if p d then subRuns p rep (d :: rest) else rep :: subRuns p rep (d :: rest)
      else c :: subRuns p rep (d :: rest) := rfl

theorem words_cons₂ (c d : Nat) (rest : PyStr) :
    words (c :: d :: rest) =
      if isWs c then words (d :: rest)
      else if isWs d then [c] :: words (d :: rest)
      else
        match words (d :: rest) with
        | [] => [[c]]
        | w :: ws => (c :: w) :: ws := rfl

theorem collapseWs_words :
    ∀ l : PyStr, endsWs l = false →
      collapseWs l = (if startsWs l then ([32] : PyStr) else []) ++ joinW (words l) := by
  intro l
  induction l with
  | nil => intro _; rfl
  | cons c rest ih =>
    intro h
    cases rest with
    | nil =>
      have hc : isWs c = false := by rw [endsWs_cons] at h; simpa using h
      simp [collapseWs, subRuns, words, startsWs_cons, hc, joinW]
    | cons d rest' =>
      have hrest : endsWs (d :: rest') = false := by
        rw [endsWs_cons] at h; simpa using h
      have ihd := ih hrest
      by_cases hc : isWs c = true
      · by_cases hd : isWs d = true
        · have hcol : collapseWs (c :: d :: rest') = collapseWs (d :: rest') := by
            simp [collapseWs, subRuns_cons₂, hc, hd]
          rw [hcol, ihd, words_cons_ws _ hc]
          simp [startsWs_cons, hc, hd]
        · have hcol : collapseWs (c :: d :: rest') = 32 :: collapseWs (d :: rest') := by
            simp [collapseWs, subRuns_cons₂, hc, hd]
          rw [hcol, ihd, words_cons_ws _ hc]
          simp [startsWs_cons, hc, hd, Bool.of_not_eq_true hd]
      · have hcol : collapseWs (c :: d :: rest') = c :: collapseWs (d :: rest') := by
          simp [collapseWs, subRuns_cons₂, hc]
        rw [hcol, ihd]
        by_cases hd : isWs d = true
        · obtain ⟨w0, ws0, hws⟩ : ∃ w0 ws0, words (d :: rest') = w0 :: ws0 := by
            cases hws : words (d :: rest') with
            | nil => exact absurd hws (words_ne_nil_of_endsWs (List.cons_ne_nil _ _) hrest)
            | cons w0 ws0 => exact ⟨w0, ws0, rfl⟩
          rw [words_cons₂, if_neg hc, if_pos hd, hws]
          simp [startsWs_cons, hc, hd, joinW_cons₂]
        · obtain ⟨w0, ws0, hws⟩ : ∃ w0 ws0, words (d :: rest') = w0 :: ws0 := by
            cases hws : words (d :: rest') with
            | nil => exact absurd hws (words_cons_nonws_ne_nil rest' (Bool.of_not_eq_true hd))
            | cons w0 ws0 => exact ⟨w0, ws0, rfl⟩
          rw [words_cons₂, if_neg hc, if_neg hd, hws]
          cases ws0 with
          | nil => simp [startsWs_cons, hc, hd, joinW]
          | cons x r => simp [startsWs_cons, hc, hd, joinW_cons₂]

theorem mem_of_mem_takeWhile {p : Nat → Bool} {x : Nat} :
    ∀ l : PyStr, x ∈ l.takeWhile p → p x = true := by
  intro l
  induction l with
  | nil => intro hx; simp [List.takeWhile] at hx
  | cons c rest ih =>
    intro hx
    rw [List.takeWhile_cons] at hx
    split at hx
    · next hc =>
      rcases List.mem_cons.mp hx with rfl | hx'
      · exact hc
      · exact ih hx'
    · simp at hx

theorem pyStrip_decomp (l : PyStr) :
    ∃ t : PyStr, l.dropWhile isWs = pyStrip l ++ t ∧ ∀ c ∈ t, isWs c = true := by
  refine ⟨((l.dropWhile isWs).reverse.takeWhile isWs).reverse, ?_, ?_⟩
  · unfold pyStrip
    rw [← List.reverse_append, List.takeWhile_append_dropWhile, List.reverse_reverse]
  · intro c hc
    exact mem_of_mem_takeWhile _ (List.mem_reverse.mp hc)

theorem startsWs_pyStrip (l : PyStr) : startsWs (pyStrip l) = false := by
  obtain ⟨t, hdec, _⟩ := pyStrip_decomp l
  cases hs : pyStrip l with
  | nil => rfl
  | cons x xs =>
    have := startsWs_dropWhile l
    rw [hdec, hs, startsWs_append_of_ne_nil _ (List.cons_ne_nil _ _)] at this
    exact this

theorem endsWs_pyStrip (l : PyStr) : endsWs (pyStrip l) = false := by
  unfold endsWs pyStrip
  rw [List.reverse_reverse]
  exact startsWs_dropWhile _

theorem words_pyStrip (l : PyStr) : words (pyStrip l) = words l := by
  obtain ⟨t, hdec, ht⟩ := pyStrip_decomp l
  have h1 : words (l.dropWhile isWs) = words l := words_dropWhile l
  rw [hdec, words_append_allWs ht] at h1
  exact h1

theorem normalize_eq_joinW_tokens (s : PyStr) :
    _normalize_name (some s) = joinW (tokensLower s) := by
  unfold _normalize_name tokensLower
  rw [Option.getD_some]
  have hend : endsWs (lowerStr (pyStrip s)) = false := by
    rw [endsWs_lowerStr]; exact endsWs_pyStrip s
  have hstart : startsWs (lowerStr (pyStrip s)) = false := by
    rw [startsWs_lowerStr]; exact startsWs_pyStrip s
  rw [collapseWs_words _ hend, hstart]
  rw [words_lowerStr, words_pyStrip]
  simp

theorem words_of_word :
    ∀ w : PyStr, w ≠ [] → (∀ c ∈ w, isWs c = false) → words w = [w] := by
  intro w
  induction w with
  | nil => intro h _; exact absurd rfl h
  | cons c w' ih =>
    intro _ hchars
    have hc : isWs c = false := hchars c (List.mem_cons_self _ _)
    cases w' with
    | nil => simp [words, hc]
    | cons d w'' =>
      have hd : isWs d = false := hchars d (List.mem_cons_of_mem _ (List.mem_cons_self _ _))
      have hrec : words (d :: w'') = [d :: w''] :=
        ih (List.cons_ne_nil _ _) fun x hx => hchars x (List.mem_cons_of_mem _ hx)
      rw [words_cons₂, if_neg (by simp [hc]), if_neg (by simp [hd]), hrec]

theorem words_word_append :
    ∀ w : PyStr, w ≠ [] → (∀ c ∈ w, isWs c = false) →
      ∀ r : PyStr, words (w ++ 32 :: r) = w :: words r := by
  intro w
  induction w with
  | nil => intro h _; exact absurd rfl h
  | cons c w' ih =>
    intro _ hchars r
    have hc : isWs c = false := hchars c (List.mem_cons_self _ _)
    cases w' with
    | nil =>
      rw [List.singleton_append, words_cons₂, if_neg (by simp [hc]),
          if_pos (by decide), words_cons_ws _ (by decide)]
    | cons d w'' =>
      have hd : isWs d = false := hchars d (List.mem_cons_of_mem _ (List.mem_cons_self _ _))
      have hrec : words ((d :: w'') ++ 32 :: r) = (d :: w'') :: words r :=
        ih (List.cons_ne_nil _ _) (fun x hx => hchars x (List.mem_cons_of_mem _ hx)) r
      rw [List.cons_append, List.cons_append]
      rw [List.cons_append] at hrec
      rw [words_cons₂, if_neg (by simp [hc]), if_neg (by simp [hd]), hrec]

theorem words_joinW :
    ∀ ts : List PyStr, (∀ t ∈ ts, t ≠ [] ∧ ∀ c ∈ t, isWs c = false) →
      words (joinW ts) = ts := by
  intro ts
  induction ts with
  | nil => intro _; rfl
  | cons t ts' ih =>
    intro hts
    have ht := hts t (List.mem_cons_self _ _)
    cases ts' with
    | nil =>
      show words (joinW [t]) = [t]
      rw [show joinW [t] = t from rfl]
      exact words_of_word t ht.1 ht.2
    | cons t2 ts'' =>
      rw [joinW_cons₂, words_word_append t ht.1 ht.2,
          ih fun x hx => hts x (List.mem_cons_of_mem _ hx)]

theorem tokensLower_props (s : PyStr) :
    ∀ t ∈ tokensLower s, t ≠ [] ∧ ∀ c ∈ t, isWs c = false := by
  intro t ht
  unfold tokensLower at ht
  obtain ⟨w, hw, rfl⟩ := List.mem_map.mp ht
  have hp := words_props s w hw
  refine ⟨lowerStr_ne_nil hp.1, ?_⟩
  intro c hc
  obtain ⟨c', hc', rfl⟩ := List.mem_map.mp hc
  rw [isWs_pyLower]
  exact hp.2 c' hc'

theorem tokensLower_joinW_tokensLower (s : PyStr) :
    tokensLower (joinW (tokensLower s)) = tokensLower s := by
  unfold tokensLower
  rw [show (words s).map lowerStr = tokensLower s from rfl,
      words_joinW _ (tokensLower_props s)]
  unfold tokensLower
  rw [List.map_map]
  congr 1
  funext w
  simp only [Function.comp_apply]
  exact lowerStr_idem w

/-- C6: the name canonicalizer `_normalize_name` is total on every input
(absent input and the empty string both give the empty key), idempotent, and
maps any two raw names that differ only in letter casing, leading/trailing
whitespace, or internal whitespace runs — i.e. names with equal case-folded
whitespace-token decompositions — to the same key. -/
theorem canonicalizer_total_idempotent_invariant :
    (_normalize_name none = [] ∧ _normalize_name (some []) = [])
    ∧ (∀ s : PyStr,
        _normalize_name (some (_normalize_name (some s))) = _normalize_name (some s))
    ∧ (∀ x y : PyStr, tokensLower x = tokensLower y →
        _normalize_name (some x) = _normalize_name (some y)) := by
  refine ⟨⟨rfl, rfl⟩, ?_, ?_⟩
  · intro s
    rw [normalize_eq_joinW_tokens s, normalize_eq_joinW_tokens,
        tokensLower_joinW_tokensLower]
  · intro x y h
    rw [normalize_eq_joinW_tokens, normalize_eq_joinW_tokens, h]

/-- Witness for C6 at concrete inputs: names differing only in casing and
whitespace runs share a key. -/
theorem canonicalizer_total_idempotent_invariant_witness :
    tokensLower (s2p "Acme  IT") = tokensLower (s2p " ACME It ")
    ∧ _normalize_name (some (s2p "Acme  IT")) = _normalize_name (some (s2p " ACME It ")) :=
  ⟨by decide, canonicalizer_total_idempotent_invariant.2.2 _ _ (by decide)⟩

/-!
Helper lemmas for the Record Deduplicator (`dedupe_summaries`).
-/

theorem orFind_some {α : Type} (v : α) (x : Option α) : orFind (some v) x = some v := rfl

theorem orFind_none {α : Type} (x : Option α) : orFind none x = x := rfl

theorem orFind_none_right {α : Type} (a : Option α) : orFind a none = a := by
  cases a <;> rfl

theorem orFind_assoc {α : Type} (a b c : Option α) :
    orFind (orFind a b) c = orFind a (orFind b c) := by
  cases a <;> cases b <;> rfl

theorem lookupA_append (l1 l2 : List (PyStr × SRow)) (k : PyStr) :
    lookupA (l1 ++ l2) k = orFind (lookupA l1 k) (lookupA l2 k) := by
  induction l1 with
  | nil => simp [lookupA, orFind_none]
  | cons e rest ih =>
    obtain ⟨k', v⟩ := e
    rw [List.cons_append]
    by_cases h : k' = k
    · simp [lookupA, h, orFind_some]
    · simp only [lookupA, if_neg h]
      exact ih

theorem find?_append_or {α : Type} (p : α → Bool) (l1 l2 : List α) :
    (l1 ++ l2).find? p = orFind (l1.find? p) (l2.find? p) := by
  induction l1 with
  | nil => simp [orFind_none]
  | cons a rest ih =>
    rw [List.cons_append]
    by_cases h : p a = true
    · rw [List.find?_cons_of_pos _ h, List.find?_cons_of_pos _ h, orFind_some]
    · rw [List.find?_cons_of_neg _ h, List.find?_cons_of_neg _ h]
      exact ih

theorem lookupA_replaceA_self (s : List (PyStr × SRow)) (k : PyStr) (row : SRow)
    (h : (lookupA s k).isSome = true) :
    lookupA (replaceA s k row) k = some row := by
  induction s with
  | nil => simp [lookupA] at h
  | cons e rest ih =>
    obtain ⟨k', v⟩ := e
    by_cases hk : k' = k
    · simp [replaceA, lookupA, hk]
    · simp only [lookupA, if_neg hk] at h
      simp only [replaceA, if_neg hk, lookupA, if_neg hk]
      exact ih h

theorem lookupA_replaceA_ne (s : List (PyStr × SRow)) (k : PyStr) (row : SRow)
    (k2 : PyStr) (h : k2 ≠ k) :
    lookupA (replaceA s k row) k2 = lookupA s k2 := by
  induction s with
  | nil => rfl
  | cons e rest ih =>
    obtain ⟨k', v⟩ := e
    by_cases hk : k' = k
    · have hne' : ¬ k' = k2 := fun hh => h ((hk ▸ hh).symm)
      simp only [replaceA, if_pos hk, lookupA, if_neg hne']
    · simp only [replaceA, if_neg hk, lookupA]
      split
      · rfl
      · exact ih

theorem dedupeStep_fst (keep : PyStr) (st : Nat × List (PyStr × SRow)) (row : SRow) :
    (dedupeStep keep st row).1 = st.1 + 1 := by
  simp only [dedupeStep]
  split
  · rfl
  · split
    · split <;> rfl
    · rfl

theorem dedupe_total (keep : PyStr) :
    ∀ (rows : List SRow) (st : Nat × List (PyStr × SRow)),
      (rows.foldl (dedupeStep keep) st).1 = st.1 + rows.length := by
  intro rows
  induction rows with
  | nil => intro st; simp
  | cons r rest ih =>
    intro st
    rw [List.foldl_cons, ih, dedupeStep_fst]
    simp only [List.length_cons]
    omega

theorem dedupeStep_snd_cases (keep : PyStr) (st : Nat × List (PyStr × SRow)) (row : SRow) :
    (dedupeStep keep st row).2 = st.2
    ∨ (_normalize_name (some row.name) ≠ [] ∧
        (dedupeStep keep st row).2 = replaceA st.2 (_normalize_name (some row.name)) row ∧
        (lookupA st.2 (_normalize_name (some row.name))).isSome = true)
    ∨ (_normalize_name (some row.name) ≠ [] ∧
        (dedupeStep keep st row).2 = st.2 ++ [(_normalize_name (some row.name), row)] ∧
        lookupA st.2 (_normalize_name (some row.name)) = none) := by
  simp only [dedupeStep]
  split
  · left; rfl
  · next hkey =>
    split
    · next hsome =>
      split
      · right; left; exact ⟨hkey, rfl, hsome⟩
      · left; rfl
    · next hnone =>
      right; right
      refine ⟨hkey, rfl, ?_⟩
      cases hh : lookupA st.2 (_normalize_name (some row.name)) with
      | none => rfl
      | some v => rw [hh] at hnone; simp at hnone

theorem dedupe_empty_key (keep : PyStr) :
    ∀ (rows : List SRow) (st : Nat × List (PyStr × SRow)),
      lookupA st.2 [] = none →
      lookupA (rows.foldl (dedupeStep keep) st).2 [] = none := by
  intro rows
  induction rows with
  | nil => intro st h; exact h
  | cons r rest ih =>
    intro st h
    rw [List.foldl_cons]
    refine ih _ ?_
    rcases dedupeStep_snd_cases keep st r with hc | ⟨hkey, hc, _⟩ | ⟨hkey, hc, _⟩
    · rw [hc]; exact h
    · rw [hc, lookupA_replaceA_ne _ _ _ _ fun hh => hkey hh.symm]
      exact h
    · rw [hc, lookupA_append, h]
      simp [lookupA, hkey, orFind_none]

theorem dedupeStep_first_snd (st : Nat × List (PyStr × SRow)) (row : SRow) :
    (dedupeStep (s2p "first") st row).2 =
      if _normalize_name (some row.name) = [] then st.2
      else if (lookupA st.2 (_normalize_name (some row.name))).isSome then st.2
      else st.2 ++ [(_normalize_name (some row.name), row)] := by
  have hne : ¬ (s2p "first" = s2p "last") := by decide
  by_cases hkey : _normalize_name (some row.name) = []
  · simp [dedupeStep, hkey]
  · by_cases hsome : (lookupA st.2 (_normalize_name (some row.name))).isSome = true
    · simp [dedupeStep, hkey, hsome, hne]
    · simp [dedupeStep, hkey, hsome]

theorem dedupeStep_last_snd (st : Nat × List (PyStr × SRow)) (row : SRow) :
    (dedupeStep (s2p "last") st row).2 =
      if _normalize_name (some row.name) = [] then st.2
      else if (lookupA st.2 (_normalize_name (some row.name))).isSome then
        replaceA st.2 (_normalize_name (some row.name)) row
      else st.2 ++ [(_normalize_name (some row.name), row)] := by
  by_cases hkey : _normalize_name (some row.name) = []
  · simp [dedupeStep, hkey]
  · by_cases hsome : (lookupA st.2 (_normalize_name (some row.name))).isSome = true
    · simp [dedupeStep, hkey, hsome]
    · simp [dedupeStep, hkey, hsome]

theorem dedupe_first_lookup :
    ∀ (rows : List SRow) (st : Nat × List (PyStr × SRow)) (k : PyStr), k ≠ [] →
      lookupA (rows.foldl (dedupeStep (s2p "first")) st).2 k =
        orFind (lookupA st.2 k)
          (rows.find? (fun r => decide (_normalize_name (some r.name) = k))) := by
  intro rows
  induction rows with
  | nil =>
    intro st k _
    rw [List.foldl_nil, List.find?_nil, orFind_none_right]
  | cons r rest ih =>
    intro st k hk
    rw [List.foldl_cons, ih _ k hk]
    by_cases hkey : _normalize_name (some r.name) = []
    · rw [dedupeStep_first_snd, if_pos hkey,
          List.find?_cons_of_neg _ (by simp; exact fun hh => hk (hh ▸ hkey))]
    · by_cases hsome : (lookupA st.2 (_normalize_name (some r.name))).isSome = true
      · rw [dedupeStep_first_snd, if_neg hkey, if_pos hsome]
        by_cases hkk : _normalize_name (some r.name) = k
        · obtain ⟨v, hv⟩ := Option.isSome_iff_exists.mp (hkk ▸ hsome)
          rw [hv, orFind_some, orFind_some]
        · rw [List.find?_cons_of_neg _ (by simpa using hkk)]
      · have hnone : lookupA st.2 (_normalize_name (some r.name)) = none :=
          Option.not_isSome_iff_eq_none.mp hsome
        rw [dedupeStep_first_snd, if_neg hkey, if_neg hsome, lookupA_append]
        by_cases hkk : _normalize_name (some r.name) = k
        · have hlk : lookupA st.2 k = none := hkk ▸ hnone
          rw [hlk, orFind_none, orFind_none,
              List.find?_cons_of_pos _ (by simpa using hkk)]
          simp [lookupA, hkk, orFind_some]
        · have hsing : lookupA [(_normalize_name (some r.name), r)] k = none := by
            simp [lookupA, hkk]
          rw [hsing, orFind_none_right, List.find?_cons_of_neg _ (by simpa using hkk)]

theorem dedupe_last_lookup :
    ∀ (rows : List SRow) (st : Nat × List (PyStr × SRow)) (k : PyStr), k ≠ [] →
      lookupA (rows.foldl (dedupeStep (s2p "last")) st).2 k =
        orFind (rows.reverse.find? (fun r => decide (_normalize_name (some r.name) = k)))
          (lookupA st.2 k) := by
  intro rows
  induction rows with
  | nil =>
    intro st k _
    rw [List.foldl_nil, List.reverse_nil, List.find?_nil, orFind_none]
  | cons r rest ih =>
    intro st k hk
    rw [List.foldl_cons, ih _ k hk, List.reverse_cons, find?_append_or]
    by_cases hkey : _normalize_name (some r.name) = []
    · have hpred : (fun r' : SRow => decide (_normalize_name (some r'.name) = k)) r = false := by
        simp
        exact fun hh => hk (hh ▸ hkey)
      rw [dedupeStep_last_snd, if_pos hkey,
          List.find?_cons_of_neg _ (by simpa using hpred), List.find?_nil, orFind_none_right]
    · by_cases hsome : (lookupA st.2 (_normalize_name (some r.name))).isSome = true
      · rw [dedupeStep_last_snd, if_neg hkey, if_pos hsome]
        by_cases hkk : _normalize_name (some r.name) = k
        · rw [hkk] at hsome ⊢
          rw [lookupA_replaceA_self _ _ _ hsome,
              List.find?_cons_of_pos _ (by simpa using hkk),
              orFind_assoc, orFind_some]
        · rw [lookupA_replaceA_ne _ _ _ _ (fun hh => hkk hh.symm),
              List.find?_cons_of_neg _ (by simpa using hkk), List.find?_nil,
              orFind_none_right]
      · have hnone : lookupA st.2 (_normalize_name (some r.name)) = none :=
          Option.not_isSome_iff_eq_none.mp hsome
        rw [dedupeStep_last_snd, if_neg hkey, if_neg hsome, lookupA_append]
        by_cases hkk : _normalize_name (some r.name) = k
        · have hlk : lookupA st.2 k = none := hkk ▸ hnone
          have hsing : lookupA [(_normalize_name (some r.name), r)] k = some r := by
            simp [lookupA, hkk]
          rw [hlk, hsing, orFind_none,
              List.find?_cons_of_pos _ (by simpa using hkk), orFind_none_right]
        · have hsing : lookupA [(_normalize_name (some r.name), r)] k = none := by
            simp [lookupA, hkk]
          rw [hsing, orFind_none_right,
              List.find?_cons_of_neg _ (by simpa using hkk), List.find?_nil,
              orFind_none_right]

/-- C7: `dedupe_summaries` with policy `first` keeps, for each nonempty
identity key, the earliest input row with that key (its full field values);
policy `last` keeps the latest such row; rows whose name canonicalizes to the
empty key never enter the unique map but are counted in the total; and the
spec's three-row scenario yields total 3, one unique entry, holding the first
row. -/
theorem dedupe_policy_first_last :
    (∀ (rows : List SRow) (k : PyStr), k ≠ [] →
        lookupA (dedupe_summaries (s2p "first") rows).2 k =
          rows.find? (fun r => decide (_normalize_name (some r.name) = k)))
    ∧ (∀ (rows : List SRow) (k : PyStr), k ≠ [] →
        lookupA (dedupe_summaries (s2p "last") rows).2 k =
          rows.reverse.find? (fun r => decide (_normalize_name (some r.name) = k)))
    ∧ (∀ (keep : PyStr) (rows : List SRow),
        (dedupe_summaries keep rows).1 = rows.length
        ∧ lookupA (dedupe_summaries keep rows).2 [] = none)
    ∧ ((dedupe_summaries (s2p "first")
          [⟨s2p "Acme IT", [(s2p "id", s2p "1")]⟩,
           ⟨s2p "  acme it  ", [(s2p "id", s2p "2")]⟩,
           ⟨s2p "Acme IT", [(s2p "id", s2p "3")]⟩]).1 = 3
        ∧ (dedupe_summaries (s2p "first")
            [⟨s2p "Acme IT", [(s2p "id", s2p "1")]⟩,
             ⟨s2p "  acme it  ", [(s2p "id", s2p "2")]⟩,
             ⟨s2p "Acme IT", [(s2p "id", s2p "3")]⟩]).2
            = [(s2p "acme it", ⟨s2p "Acme IT", [(s2p "id", s2p "1")]⟩)]) := by
  refine ⟨?_, ?_, ?_, by decide, by decide⟩
  · intro rows k hk
    have h := dedupe_first_lookup rows (0, []) k hk
    simpa [dedupe_summaries, lookupA, orFind_none] using h
  · intro rows k hk
    have h := dedupe_last_lookup rows (0, []) k hk
    simpa [dedupe_summaries, lookupA, orFind_none_right] using h
  · intro keep rows
    constructor
    · have h := dedupe_total keep rows (0, [])
      simpa [dedupe_summaries] using h
    · exact dedupe_empty_key keep rows (0, []) rfl

/-- Witness for C7 at a concrete duplicated input under policy `first`. -/
theorem dedupe_policy_first_last_witness :
    (s2p "acme it" ≠ [])
    ∧ lookupA (dedupe_summaries (s2p "first")
        [⟨s2p "Acme IT", [(s2p "id", s2p "1")]⟩, ⟨s2p "acme IT", [(s2p "id", s2p "2")]⟩]).2
        (s2p "acme it") =
      ([⟨s2p "Acme IT", [(s2p "id", s2p "1")]⟩,
        ⟨s2p "acme IT", [(s2p "id", s2p "2")]⟩] : List SRow).find?
        (fun r => decide (_normalize_name (some r.name) = s2p "acme it")) :=
  ⟨by decide, dedupe_policy_first_last.1 _ _ (by decide)⟩

theorem dedupeStep_ne_last {keep : PyStr} (h : keep ≠ s2p "last") :
    dedupeStep keep = dedupeStep (s2p "first") := by
  funext st row
  simp only [dedupeStep]
  rw [if_neg h, if_neg (by decide : ¬ (s2p "first" = s2p "last"))]

/-- C10: `dedupe_summaries` never validates `keep`: every value other than
exactly the string `"last"` (such as `"Last"` or a misspelling) behaves
identically to `"first"`. -/
theorem dedupe_keep_no_validation (keep : PyStr) (h : keep ≠ s2p "last")
    (rows : List SRow) :
    dedupe_summaries keep rows = dedupe_summaries (s2p "first") rows := by
  unfold dedupe_summaries
  rw [dedupeStep_ne_last h]

/-- Witness for C10: `keep="Last"` (capitalized) acts as `first`. -/
theorem dedupe_keep_no_validation_witness :
    (s2p "Last" ≠ s2p "last")
    ∧ dedupe_summaries (s2p "Last")
        [⟨s2p "Acme", [(s2p "id", s2p "1")]⟩, ⟨s2p "ACME", [(s2p "id", s2p "2")]⟩]
      = dedupe_summaries (s2p "first")
        [⟨s2p "Acme", [(s2p "id", s2p "1")]⟩, ⟨s2p "ACME", [(s2p "id", s2p "2")]⟩] :=
  ⟨by decide, dedupe_keep_no_validation _ (by decide) _⟩

/-!
Helper lemmas for the Relational Loader's company upsert (C4).
-/

theorem populate_companies_unfold (initC : List CompanyRow) (initN : Nat)
    (initP : List PersonRow) (compSrc : List CompanySrc) (pplSrc : List PersonSrc) :
    (populate_companies_people initC initN initP compSrc pplSrc).companies
        = (upsertCompanies (initC, initN) compSrc).1
      ∧ (populate_companies_people initC initN initP compSrc pplSrc).nextId
        = (upsertCompanies (initC, initN) compSrc).2 := ⟨rfl, rfl⟩

theorem upsertCompanies_no_conflict :
    ∀ (rows : List CompanySrc) (t : List CompanyRow) (n : Nat),
      (∀ r ∈ rows, ∀ c ∈ t, c.name_norm ≠ sqlNormalize r.name) →
      (rows.map (fun r => sqlNormalize r.name)).Nodup →
      upsertCompanies (t, n) rows = (t ++ insertAllFrom n rows, n + rows.length) := by
  intro rows
  induction rows with
  | nil => intro t n _ _; simp [upsertCompanies, insertAllFrom]
  | cons r rest ih =>
    intro t n hdis hnd
    rw [List.map_cons, List.nodup_cons] at hnd
    have hnc : ¬ (t.any fun c => decide (c.name_norm = sqlNormalize r.name)) = true := by
      simp only [List.any_eq_true, decide_eq_true_eq]
      rintro ⟨c, hc, hceq⟩
      exact hdis r (List.mem_cons_self _ _) c hc hceq
    show List.foldl upsertCompanyStep (t, n) (r :: rest) = _
    rw [List.foldl_cons]
    have hstep : upsertCompanyStep (t, n) r = (t ++ [mkCompanyRow n r], n + 1) := by
      simp only [upsertCompanyStep, if_neg hnc]
    rw [hstep]
    have hdis' : ∀ r' ∈ rest, ∀ c ∈ t ++ [mkCompanyRow n r],
        c.name_norm ≠ sqlNormalize r'.name := by
      intro r' hr' c hc
      rcases List.mem_append.mp hc with hc' | hc'
      · exact hdis r' (List.mem_cons_of_mem _ hr') c hc'
      · rw [List.mem_singleton] at hc'
        subst hc'
        show sqlNormalize r.name ≠ sqlNormalize r'.name
        intro heq
        exact hnd.1 (by rw [heq]; exact List.mem_map_of_mem _ hr')
    have hrec := ih (t ++ [mkCompanyRow n r]) (n + 1) hdis' hnd.2
    rw [show List.foldl upsertCompanyStep (t ++ [mkCompanyRow n r], n + 1) rest
          = upsertCompanies (t ++ [mkCompanyRow n r], n + 1) rest from rfl, hrec]
    simp only [insertAllFrom, Prod.mk.injEq, List.length_cons]
    constructor
    · rw [List.append_assoc]
      rfl
    · omega

theorem mem_insertAllFrom :
    ∀ (rows : List CompanySrc) (n : Nat) (c : CompanyRow),
      c ∈ insertAllFrom n rows → ∃ m r, r ∈ rows ∧ c = mkCompanyRow m r := by
  intro rows
  induction rows with
  | nil => intro n c hc; simp [insertAllFrom] at hc
  | cons r rest ih =>
    intro n c hc
    rw [show insertAllFrom n (r :: rest)
          = mkCompanyRow n r :: insertAllFrom (n + 1) rest from rfl] at hc
    rcases List.mem_cons.mp hc with rfl | hc'
    · exact ⟨n, r, List.mem_cons_self _ _, rfl⟩
    · obtain ⟨m, r', hr', hcr⟩ := ih (n + 1) c hc'
      exact ⟨m, r', List.mem_cons_of_mem _ hr', hcr⟩

theorem mem_insertAllFrom_of_mem :
    ∀ (rows : List CompanySrc) (n : Nat) (r : CompanySrc), r ∈ rows →
      ∃ m, mkCompanyRow m r ∈ insertAllFrom n rows := by
  intro rows
  induction rows with
  | nil => intro n r hr; simp at hr
  | cons r0 rest ih =>
    intro n r hr
    rw [show insertAllFrom n (r0 :: rest)
          = mkCompanyRow n r0 :: insertAllFrom (n + 1) rest from rfl]
    rcases List.mem_cons.mp hr with rfl | hr'
    · exact ⟨n, List.mem_cons_self _ _⟩
    · obtain ⟨m, hm⟩ := ih (n + 1) r hr'
      exact ⟨m, List.mem_cons_of_mem _ hm⟩

theorem updCompanies_id (key : PyStr) (r : CompanySrc) :
    ∀ t : List CompanyRow,
      (∀ c ∈ t, c.name_norm = key →
        c.website = r.website ∧ c.summary = r.summary ∧ c.top_urls = r.top_urls) →
      updCompanies key r t = t := by
  intro t
  induction t with
  | nil => intro _; rfl
  | cons c rest ih =>
    intro h
    by_cases hc : c.name_norm = key
    · have hp := h c (List.mem_cons_self _ _) hc
      simp only [updCompanies, if_pos hc]
      congr 1
      cases c
      simp_all
    · simp only [updCompanies, if_neg hc]
      congr 1
      exact ih fun c' hc' => h c' (List.mem_cons_of_mem _ hc')

theorem upsertCompanies_id :
    ∀ (rows2 : List CompanySrc) (st : List CompanyRow × Nat),
      (∀ r ∈ rows2, upsertCompanyStep st r = st) →
      upsertCompanies st rows2 = st := by
  intro rows2
  induction rows2 with
  | nil => intro st _; rfl
  | cons r rest ih =>
    intro st h
    show List.foldl upsertCompanyStep st (r :: rest) = st
    rw [List.foldl_cons, h r (List.mem_cons_self _ _)]
    exact ih st fun r' hr' => h r' (List.mem_cons_of_mem _ hr')

/-- C4: with pairwise-distinct identity keys in the companies CSV, running
`populate_companies_people` twice on the same inputs leaves the companies
table exactly as after one run — same rows, same field values. -/
theorem populate_companies_idempotent (compSrc : List CompanySrc)
    (pplSrc : List PersonSrc)
    (h : (compSrc.map (fun r => sqlNormalize r.name)).Nodup) :
    (populate_companies_people
        (populate_companies_people [] 0 [] compSrc pplSrc).companies
        (populate_companies_people [] 0 [] compSrc pplSrc).nextId
        (populate_companies_people [] 0 [] compSrc pplSrc).people
        compSrc pplSrc).companies
      = (populate_companies_people [] 0 [] compSrc pplSrc).companies := by
  have h1 := upsertCompanies_no_conflict compSrc [] 0 (by intro r _ c hc; simp at hc) h
  rw [List.nil_append, Nat.zero_add] at h1
  have hko := populate_companies_unfold [] 0 [] compSrc pplSrc
  have honceC : (populate_companies_people [] 0 [] compSrc pplSrc).companies
      = insertAllFrom 0 compSrc := by rw [hko.1, h1]
  have honceN : (populate_companies_people [] 0 [] compSrc pplSrc).nextId
      = compSrc.length := by rw [hko.2, h1]
  have hk2 := populate_companies_unfold
    (populate_companies_people [] 0 [] compSrc pplSrc).companies
    (populate_companies_people [] 0 [] compSrc pplSrc).nextId
    (populate_companies_people [] 0 [] compSrc pplSrc).people compSrc pplSrc
  rw [hk2.1, honceC, honceN]
  have hid : upsertCompanies (insertAllFrom 0 compSrc, compSrc.length) compSrc
      = (insertAllFrom 0 compSrc, compSrc.length) := by
    refine upsertCompanies_id compSrc _ ?_
    intro r hr
    have hmem : (insertAllFrom 0 compSrc).any
        (fun c => decide (c.name_norm = sqlNormalize r.name)) = true := by
      rw [List.any_eq_true]
      obtain ⟨m, hm⟩ := mem_insertAllFrom_of_mem compSrc 0 r hr
      exact ⟨mkCompanyRow m r, hm, by simp [mkCompanyRow]⟩
    simp only [upsertCompanyStep, if_pos hmem]
    rw [updCompanies_id]
    intro c hc hck
    obtain ⟨m, r', hr', rfl⟩ := mem_insertAllFrom compSrc 0 c hc
    have hkeq : sqlNormalize r'.name = sqlNormalize r.name := hck
    have : r' = r := List.inj_on_of_nodup_map h hr' hr hkeq
    subst this
    exact ⟨rfl, rfl, rfl⟩
  rw [hid]

/-- Witness for C4 at a concrete two-row CSV with distinct keys. -/
theorem populate_companies_idempotent_witness :
    (([⟨s2p "Acme IT", s2p "a.com", s2p "", s2p "", s2p "", s2p "sum", s2p "u"⟩,
       ⟨s2p "Beta LLC", s2p "b.com", s2p "", s2p "", s2p "", s2p "s2", s2p "u2"⟩]
        : List CompanySrc).map (fun r => sqlNormalize r.name)).Nodup
    ∧ (populate_companies_people
        (populate_companies_people [] 0 []
          [⟨s2p "Acme IT", s2p "a.com", s2p "", s2p "", s2p "", s2p "sum", s2p "u"⟩,
           ⟨s2p "Beta LLC", s2p "b.com", s2p "", s2p "", s2p "", s2p "s2", s2p "u2"⟩]
          []).companies
        (populate_companies_people [] 0 []
          [⟨s2p "Acme IT", s2p "a.com", s2p "", s2p "", s2p "", s2p "sum", s2p "u"⟩,
           ⟨s2p "Beta LLC", s2p "b.com", s2p "", s2p "", s2p "", s2p "s2", s2p "u2"⟩]
          []).nextId
        (populate_companies_people [] 0 []
          [⟨s2p "Acme IT", s2p "a.com", s2p "", s2p "", s2p "", s2p "sum", s2p "u"⟩,
           ⟨s2p "Beta LLC", s2p "b.com", s2p "", s2p "", s2p "", s2p "s2", s2p "u2"⟩]
          []).people
        [⟨s2p "Acme IT", s2p "a.com", s2p "", s2p "", s2p "", s2p "sum", s2p "u"⟩,
         ⟨s2p "Beta LLC", s2p "b.com", s2p "", s2p "", s2p "", s2p "s2", s2p "u2"⟩]
        []).companies
      = (populate_companies_people [] 0 []
          [⟨s2p "Acme IT", s2p "a.com", s2p "", s2p "", s2p "", s2p "sum", s2p "u"⟩,
           ⟨s2p "Beta LLC", s2p "b.com", s2p "", s2p "", s2p "", s2p "s2", s2p "u2"⟩]
          []).companies :=
  ⟨by decide, populate_companies_idempotent _ _ (by decide)⟩

/-!
Helper lemmas for the people load (C8, C5, C1).
-/

theorem dedupByUrl_nodup :
    ∀ (l : List PersonRow) (seen : List PyStr),
      ((dedupByUrl l seen).map (·.profile_url)).Nodup
      ∧ ∀ u ∈ (dedupByUrl l seen).map (·.profile_url), u ∉ seen := by
  intro l
  induction l with
  | nil => intro seen; exact ⟨List.nodup_nil, by simp [dedupByUrl]⟩
  | cons p rest ih =>
    intro seen
    by_cases hp : p.profile_url ∈ seen
    · rw [show dedupByUrl (p :: rest) seen = dedupByUrl rest seen from by
        simp [dedupByUrl, hp]]
      exact ih seen
    · rw [show dedupByUrl (p :: rest) seen
            = p :: dedupByUrl rest (p.profile_url :: seen) from by
        simp [dedupByUrl, hp]]
      have ihr := ih (p.profile_url :: seen)
      constructor
      · rw [List.map_cons, List.nodup_cons]
        exact ⟨fun hmem => (ihr.2 _ hmem) (List.mem_cons_self _ _), ihr.1⟩
      · intro u hu
        rw [List.map_cons] at hu
        rcases List.mem_cons.mp hu with rfl | hu'
        · exact hp
        · exact fun hus => (ihr.2 u hu') (List.mem_cons_of_mem _ hus)

theorem dedupByUrl_length :
    ∀ (l : List PersonRow) (seen : List PyStr), (dedupByUrl l seen).length ≤ l.length := by
  intro l
  induction l with
  | nil => intro seen; simp [dedupByUrl]
  | cons p rest ih =>
    intro seen
    by_cases hp : p.profile_url ∈ seen
    · rw [show dedupByUrl (p :: rest) seen = dedupByUrl rest seen from by
        simp [dedupByUrl, hp]]
      exact Nat.le_succ_of_le (ih seen)
    · rw [show dedupByUrl (p :: rest) seen
            = p :: dedupByUrl rest (p.profile_url :: seen) from by
        simp [dedupByUrl, hp]]
      simpa using ih (p.profile_url :: seen)

theorem mem_of_mem_dedupByUrl :
    ∀ (l : List PersonRow) (seen : List PyStr) (x : PersonRow),
      x ∈ dedupByUrl l seen → x ∈ l := by
  intro l
  induction l with
  | nil => intro seen x hx; simp [dedupByUrl] at hx
  | cons p rest ih =>
    intro seen x hx
    by_cases hp : p.profile_url ∈ seen
    · rw [show dedupByUrl (p :: rest) seen = dedupByUrl rest seen from by
        simp [dedupByUrl, hp]] at hx
      exact List.mem_cons_of_mem _ (ih seen x hx)
    · rw [show dedupByUrl (p :: rest) seen
            = p :: dedupByUrl rest (p.profile_url :: seen) from by
        simp [dedupByUrl, hp]] at hx
      rcases List.mem_cons.mp hx with rfl | hx'
      · exact List.mem_cons_self _ _
      · exact List.mem_cons_of_mem _ (ih _ x hx')

theorem insertPeople_nodup (table joined : List PersonRow)
    (h : (table.map (·.profile_url)).Nodup) :
    ((insertPeople table joined).map (·.profile_url)).Nodup := by
  unfold insertPeople
  rw [List.map_append]
  refine List.Nodup.append h (dedupByUrl_nodup joined _).1 ?_
  intro u hu1 hu2
  exact (dedupByUrl_nodup joined (table.map (·.profile_url))).2 u hu2 hu1

/-- C8: after `populate_companies_people`, no two rows of the people table
share a profile_url — the joined rows are deduplicated by url and rows whose
url already exists are skipped — provided the preexisting table already
satisfied the schema's uniqueness constraint (e.g. it was empty). -/
theorem people_profile_url_unique (initC : List CompanyRow) (initN : Nat)
    (initP : List PersonRow) (compSrc : List CompanySrc) (pplSrc : List PersonSrc)
    (h : (initP.map (·.profile_url)).Nodup) :
    (((populate_companies_people initC initN initP compSrc pplSrc).people).map
        (·.profile_url)).Nodup :=
  insertPeople_nodup initP _ h

/-- Witness for C8: duplicate urls in the people CSV still load uniquely. -/
theorem people_profile_url_unique_witness :
    ((([] : List PersonRow)).map (·.profile_url)).Nodup
    ∧ (((populate_companies_people [] 0 []
          [⟨s2p "Acme", s2p "", s2p "", s2p "", s2p "", s2p "", s2p ""⟩]
          [⟨s2p "Acme", s2p "https://linkedin.com/in/bob", s2p "", s2p ""⟩,
           ⟨s2p "Acme", s2p "https://linkedin.com/in/bob", s2p "", s2p ""⟩]).people).map
        (·.profile_url)).Nodup :=
  ⟨by decide, people_profile_url_unique _ _ _ _ _ (by decide)⟩

theorem updCompanies_length (key : PyStr) (r : CompanySrc) :
    ∀ t : List CompanyRow, (updCompanies key r t).length = t.length := by
  intro t
  induction t with
  | nil => rfl
  | cons c rest ih =>
    by_cases hc : c.name_norm = key
    · simp [updCompanies, hc]
    · simp [updCompanies, hc, ih]

theorem upsertCompanies_length :
    ∀ (rows : List CompanySrc) (st : List CompanyRow × Nat),
      (upsertCompanies st rows).1.length ≤ st.1.length + rows.length := by
  intro rows
  induction rows with
  | nil => intro st; simp [upsertCompanies]
  | cons r rest ih =>
    intro st
    show (List.foldl upsertCompanyStep (upsertCompanyStep st r) rest).1.length ≤ _
    have hstep : (upsertCompanyStep st r).1.length ≤ st.1.length + 1 := by
      simp only [upsertCompanyStep]
      split
      · rw [updCompanies_length]
        omega
      · simp
    have hrec := ih (upsertCompanyStep st r)
    rw [List.length_cons]
    calc (List.foldl upsertCompanyStep (upsertCompanyStep st r) rest).1.length
        ≤ (upsertCompanyStep st r).1.length + rest.length := hrec
      _ ≤ st.1.length + 1 + rest.length := by omega
      _ = st.1.length + (rest.length + 1) := by omega

/-- C5 amended: the two returned counts are the row count of the companies
source view (`count(*) from comp_src`) and the row count of the joined people
view (`count(*) from ppl_join`) — counted before the profile_url
deduplication and the conflict skip — not the numbers of rows actually
loaded, which are bounded by (and can be smaller than) these counts. -/
theorem populate_counts (compSrc : List CompanySrc) (pplSrc : List PersonSrc) :
    (populate_companies_people [] 0 [] compSrc pplSrc).companies_loaded = compSrc.length
    ∧ (populate_companies_people [] 0 [] compSrc pplSrc).people_loaded
        = (pplJoin (populate_companies_people [] 0 [] compSrc pplSrc).companies pplSrc).length
    ∧ (populate_companies_people [] 0 [] compSrc pplSrc).companies.length ≤ compSrc.length
    ∧ (populate_companies_people [] 0 [] compSrc pplSrc).people.length
        ≤ (populate_companies_people [] 0 [] compSrc pplSrc).people_loaded := by
  refine ⟨rfl, rfl, ?_, ?_⟩
  · have h := upsertCompanies_length compSrc ([], 0)
    simpa using h
  · show (insertPeople [] _).length ≤ _
    unfold insertPeople
    rw [List.nil_append]
    exact dedupByUrl_length _ _

/-- C5 counterexample: one company and two matching people rows sharing one
profile_url — the returned people count is 2, yet only 1 row is loaded into
the people table. -/
theorem populate_counts_counterexample :
    (populate_companies_people [] 0 []
        [⟨s2p "Acme", s2p "", s2p "", s2p "", s2p "", s2p "", s2p ""⟩]
        [⟨s2p "Acme", s2p "https://linkedin.com/in/bob", s2p "", s2p ""⟩,
         ⟨s2p "Acme", s2p "https://linkedin.com/in/bob", s2p "", s2p ""⟩]).people_loaded = 2
    ∧ (populate_companies_people [] 0 []
        [⟨s2p "Acme", s2p "", s2p "", s2p "", s2p "", s2p "", s2p ""⟩]
        [⟨s2p "Acme", s2p "https://linkedin.com/in/bob", s2p "", s2p ""⟩,
         ⟨s2p "Acme", s2p "https://linkedin.com/in/bob", s2p "", s2p ""⟩]).people.length = 1 :=
  ⟨by decide, by decide⟩

theorem pplJoin_mem (companies : List CompanyRow) (src : List PersonSrc)
    (q : PersonRow) (hq : q ∈ pplJoin companies src) :
    ∃ p ∈ src, ∃ c ∈ companies,
      c.name_norm = sqlNormalize p.company ∧ q.profile_url = p.profile_url := by
  unfold pplJoin at hq
  obtain ⟨p, hp, hmk⟩ := List.mem_filterMap.mp hq
  cases hfind : companies.find? (fun c => decide (c.name_norm = sqlNormalize p.company)) with
  | none => rw [hfind] at hmk; simp at hmk
  | some c =>
    rw [hfind] at hmk
    have hc := List.mem_of_find?_eq_some hfind
    have hcp := List.find?_some hfind
    rw [decide_eq_true_eq] at hcp
    obtain rfl : (⟨some c.id, p.profile_url, p.title, p.snippet⟩ : PersonRow) = q := by
      simpa using hmk
    exact ⟨p, hp, c, hc, hcp, rfl⟩

/-- C1 amended: the people load performs an inner join on the normalized
company name — a person row whose company matches no loaded company is
dropped entirely, never inserted with an unresolved link: starting from an
empty store, a profile_url carried only by unmatched rows is absent from the
people table. -/
theorem unmatched_people_dropped (compSrc : List CompanySrc) (pplSrc : List PersonSrc)
    (u : PyStr)
    (h : ∀ p ∈ pplSrc, p.profile_url = u →
      ∀ c ∈ (populate_companies_people [] 0 [] compSrc pplSrc).companies,
        c.name_norm ≠ sqlNormalize p.company) :
    u ∉ ((populate_companies_people [] 0 [] compSrc pplSrc).people.map (·.profile_url)) := by
  intro hu
  obtain ⟨q, hq, hqu⟩ := List.mem_map.mp hu
  have hq' : q ∈ pplJoin (populate_companies_people [] 0 [] compSrc pplSrc).companies pplSrc := by
    have hin : q ∈ insertPeople []
        (pplJoin (populate_companies_people [] 0 [] compSrc pplSrc).companies pplSrc) := hq
    unfold insertPeople at hin
    rw [List.nil_append] at hin
    exact mem_of_mem_dedupByUrl _ _ _ hin
  obtain ⟨p, hp, c, hc, hcn, hpu⟩ := pplJoin_mem _ _ _ hq'
  exact h p hp (hpu ▸ hqu) c hc hcn

/-- Witness for C1's amended statement at the concrete unmatched input. -/
theorem unmatched_people_dropped_witness :
    (∀ p ∈ ([⟨s2p "Zzz Corp", s2p "https://linkedin.com/in/bob", s2p "", s2p ""⟩]
        : List PersonSrc),
      p.profile_url = s2p "https://linkedin.com/in/bob" →
      ∀ c ∈ (populate_companies_people [] 0 []
          [⟨s2p "Acme IT", s2p "", s2p "", s2p "", s2p "", s2p "", s2p ""⟩]
          [⟨s2p "Zzz Corp", s2p "https://linkedin.com/in/bob", s2p "", s2p ""⟩]).companies,
        c.name_norm ≠ sqlNormalize p.company)
    ∧ s2p "https://linkedin.com/in/bob" ∉
        ((populate_companies_people [] 0 []
          [⟨s2p "Acme IT", s2p "", s2p "", s2p "", s2p "", s2p "", s2p ""⟩]
          [⟨s2p "Zzz Corp", s2p "https://linkedin.com/in/bob", s2p "", s2p ""⟩]).people.map
          (·.profile_url)) :=
  ⟨by decide, unmatched_people_dropped _ _ _ (by decide)⟩

/-- C1 counterexample: one company "Acme IT", one person row under the
unmatched name "Zzz Corp" — the claim says the person row is still inserted
with its link unresolved, but the people table comes out empty. -/
theorem unmatched_people_dropped_counterexample :
    (populate_companies_people [] 0 []
        [⟨s2p "Acme IT", s2p "", s2p "", s2p "", s2p "", s2p "", s2p ""⟩]
        [⟨s2p "Zzz Corp", s2p "https://linkedin.com/in/bob", s2p "", s2p ""⟩]).people
      = [] := by decide

/-!
Helper lemmas for the people-discovery Evidence Collector (C2).
-/

theorem scanItems_cons_skip₁ (company website : PyStr) (cap : Nat)
    (item : People.Item) (rest : List People.Item) (seen : List PyStr)
    (out : List People.ProfileRow)
    (h1 : People.is_profile item.link = false ∨ item.link ∈ seen) :
    People.scanItems company website cap (item :: rest) seen out
      = People.scanItems company website cap rest seen out := by
  simp only [People.scanItems]
  rw [if_pos h1]

theorem scanItems_cons_skip₂ (company website : PyStr) (cap : Nat)
    (item : People.Item) (rest : List People.Item) (seen : List PyStr)
    (out : List People.ProfileRow)
    (h1 : ¬ (People.is_profile item.link = false ∨ item.link ∈ seen))
    (h2 : People.likely_employee item company = false) :
    People.scanItems company website cap (item :: rest) seen out
      = People.scanItems company website cap rest seen out := by
  simp only [People.scanItems]
  rw [if_neg h1, if_pos h2]

theorem scanItems_cons_stop (company website : PyStr) (cap : Nat)
    (item : People.Item) (rest : List People.Item) (seen : List PyStr)
    (out : List People.ProfileRow)
    (h1 : ¬ (People.is_profile item.link = false ∨ item.link ∈ seen))
    (h2 : ¬ People.likely_employee item company = false)
    (h3 : cap ≤ (seen ++ [item.link]).length) :
    People.scanItems company website cap (item :: rest) seen out
      = (seen ++ [item.link],
         out ++ [(⟨company, website, item.link, item.title, item.snippet⟩
           : People.ProfileRow)]) := by
  simp only [People.scanItems]
  rw [if_neg h1, if_neg h2, if_pos h3]

theorem scanItems_cons_go (company website : PyStr) (cap : Nat)
    (item : People.Item) (rest : List People.Item) (seen : List PyStr)
    (out : List People.ProfileRow)
    (h1 : ¬ (People.is_profile item.link = false ∨ item.link ∈ seen))
    (h2 : ¬ People.likely_employee item company = false)
    (h3 : ¬ cap ≤ (seen ++ [item.link]).length) :
    People.scanItems company website cap (item :: rest) seen out
      = People.scanItems company website cap rest (seen ++ [item.link])
          (out ++ [(⟨company, website, item.link, item.title, item.snippet⟩
            : People.ProfileRow)]) := by
  simp only [People.scanItems]
  rw [if_neg h1, if_neg h2, if_neg h3]

theorem scanItems_inv (company website : PyStr) (cap : Nat) :
    ∀ (items : List People.Item) (seen : List PyStr) (out : List People.ProfileRow),
      out.map (·.profile_url) = seen → seen.Nodup →
      ((People.scanItems company website cap items seen out).2.map (·.profile_url)
          = (People.scanItems company website cap items seen out).1
        ∧ (People.scanItems company website cap items seen out).1.Nodup) := by
  intro items
  induction items with
  | nil => intro seen out h hn; exact ⟨h, hn⟩
  | cons item rest ih =>
    intro seen out h hn
    by_cases h1 : People.is_profile item.link = false ∨ item.link ∈ seen
    · rw [scanItems_cons_skip₁ _ _ _ _ _ _ _ h1]
      exact ih seen out h hn
    · have hnotmem : item.link ∉ seen := fun hmem => h1 (Or.inr hmem)
      by_cases h2 : People.likely_employee item company = false
      · rw [scanItems_cons_skip₂ _ _ _ _ _ _ _ h1 h2]
        exact ih seen out h hn
      · have hmap : (out ++ [(⟨company, website, item.link, item.title, item.snippet⟩
            : People.ProfileRow)]).map (·.profile_url) = seen ++ [item.link] := by
          rw [List.map_append, h]
          rfl
        have hnd : (seen ++ [item.link]).Nodup := by
          rw [List.nodup_append]
          refine ⟨hn, List.nodup_singleton _, ?_⟩
          intro a ha hb
          rw [List.mem_singleton] at hb
          subst hb
          exact hnotmem ha
        by_cases h3 : cap ≤ (seen ++ [item.link]).length
        · rw [scanItems_cons_stop _ _ _ _ _ _ _ h1 h2 h3]
          exact ⟨hmap, hnd⟩
        · rw [scanItems_cons_go _ _ _ _ _ _ _ h1 h2 h3]
          exact ih _ _ hmap hnd

theorem scanItems_len (company website : PyStr) (cap : Nat) :
    ∀ (items : List People.Item) (seen : List PyStr) (out : List People.ProfileRow),
      (People.scanItems company website cap items seen out).1.length
        ≤ max (seen.length + 1) cap := by
  intro items
  induction items with
  | nil =>
    intro seen out
    show seen.length ≤ _
    omega
  | cons item rest ih =>
    intro seen out
    by_cases h1 : People.is_profile item.link = false ∨ item.link ∈ seen
    · rw [scanItems_cons_skip₁ _ _ _ _ _ _ _ h1]
      exact ih seen out
    · by_cases h2 : People.likely_employee item company = false
      · rw [scanItems_cons_skip₂ _ _ _ _ _ _ _ h1 h2]
        exact ih seen out
      · by_cases h3 : cap ≤ (seen ++ [item.link]).length
        · rw [scanItems_cons_stop _ _ _ _ _ _ _ h1 h2 h3]
          show (seen ++ [item.link]).length ≤ _
          rw [List.length_append]
          simp only [List.length_singleton]
          omega
        · rw [scanItems_cons_go _ _ _ _ _ _ _ h1 h2 h3]
          have hb := ih (seen ++ [item.link])
            (out ++ [(⟨company, website, item.link, item.title, item.snippet⟩
              : People.ProfileRow)])
          rw [List.length_append] at h3 hb
          simp only [List.length_singleton] at h3 hb
          omega

theorem collectQueries_len (company website : PyStr) (cap : Nat) :
    ∀ (qs : List (List People.Item)) (st : List PyStr × List People.ProfileRow),
      (People.collectQueries company website cap qs st).1.length
        ≤ max st.1.length cap + qs.length := by
  intro qs
  induction qs with
  | nil =>
    intro st
    show st.1.length ≤ _
    omega
  | cons q rest ih =>
    intro st
    show (People.collectQueries company website cap rest
        (People.scanItems company website cap q st.1 st.2)).1.length ≤ _
    have h1 := ih (People.scanItems company website cap q st.1 st.2)
    have h2 := scanItems_len company website cap q st.1 st.2
    rw [List.length_cons]
    omega

theorem collectQueries_inv (company website : PyStr) (cap : Nat) :
    ∀ (qs : List (List People.Item)) (st : List PyStr × List People.ProfileRow),
      st.2.map (·.profile_url) = st.1 → st.1.Nodup →
      ((People.collectQueries company website cap qs st).2.map (·.profile_url)
          = (People.collectQueries company website cap qs st).1
        ∧ (People.collectQueries company website cap qs st).1.Nodup) := by
  intro qs
  induction qs with
  | nil => intro st h hn; exact ⟨h, hn⟩
  | cons q rest ih =>
    intro st h hn
    show ((People.collectQueries company website cap rest
        (People.scanItems company website cap q st.1 st.2)).2.map (·.profile_url) = _) ∧ _
    have hs := scanItems_inv company website cap q st.1 st.2 h hn
    exact ih _ hs.1 hs.2

theorem build_queries_len (company domain : PyStr) :
    (People.build_queries company domain).length ≤ 3 := by
  unfold People.build_queries
  rw [List.length_take]
  exact Nat.min_le_left _ _

/-- C2 amended: per company, the discovered rows always carry pairwise-distinct
profile urls, but the per-company cap is only a soft bound — the query loop is
never cut short once the cap is reached, and each of the (at most 3) queries
begun at or over the cap can contribute one extra row, so the count is bounded
by `per_company + 2`, not `per_company`. -/
theorem discover_people_bounds (cache : PyStr → Option (List People.Item))
    (provider : PyStr → List People.Item) (company website domain : PyStr)
    (cap : Nat) (hcap : 1 ≤ cap) :
    ((People.discover_people_company cache provider company website domain cap).2.map
        (·.profile_url)).Nodup
    ∧ (People.discover_people_company cache provider company website domain cap).2.length
        ≤ cap + 2 := by
  have hinv := collectQueries_inv company website cap
    ((People.build_queries company domain).map (People.fetchRes cache provider))
    ([], []) rfl List.nodup_nil
  constructor
  · show ((People.collectQueries company website cap _ ([], [])).2.map (·.profile_url)).Nodup
    rw [hinv.1]
    exact hinv.2
  · have hlen : (People.discover_people_company cache provider company website domain cap).2.length
        = (People.discover_people_company cache provider company website domain cap).1.length := by
      have := congrArg List.length hinv.1
      rw [List.length_map] at this
      exact this
    rw [hlen]
    have hq3 : ((People.build_queries company domain).map
        (People.fetchRes cache provider)).length ≤ 3 := by
      rw [List.length_map]
      exact build_queries_len company domain
    cases hqs : (People.build_queries company domain).map (People.fetchRes cache provider) with
    | nil =>
      show (People.collectQueries company website cap _ ([], [])).1.length ≤ _
      rw [hqs]
      show (0 : Nat) ≤ cap + 2
      omega
    | cons q rest =>
      show (People.collectQueries company website cap _ ([], [])).1.length ≤ _
      rw [hqs]
      show (People.collectQueries company website cap (q :: rest) ([], [])).1.length ≤ _
      have hstep : (People.collectQueries company website cap (q :: rest) ([], [])).1.length
          = (People.collectQueries company website cap rest
              (People.scanItems company website cap q [] [])).1.length := rfl
      rw [hstep]
      have h1 := collectQueries_len company website cap rest
        (People.scanItems company website cap q [] [])
      have h2 := scanItems_len company website cap q [] []
      have hr2 : rest.length ≤ 2 := by
        rw [hqs] at hq3
        simp only [List.length_cons] at hq3
        omega
      simp only [List.length_nil] at h2
      omega

/-- Witness for C2's amended bound with `per_company = 2` and three queries. -/
theorem discover_people_bounds_witness :
    (1 ≤ 2)
    ∧ ((People.discover_people_company (fun _ => none)
        (fun _ =>
          [⟨s2p "https://linkedin.com/in/a1", s2p "acme person 1", s2p ""⟩,
           ⟨s2p "https://linkedin.com/in/a2", s2p "acme person 2", s2p ""⟩,
           ⟨s2p "https://linkedin.com/in/a3", s2p "acme person 3", s2p ""⟩,
           ⟨s2p "https://linkedin.com/in/a4", s2p "acme person 4", s2p ""⟩,
           ⟨s2p "https://linkedin.com/in/a5", s2p "acme person 5", s2p ""⟩])
        (s2p "acme") (s2p "https://acme.com") (s2p "acme.com") 2).2.map
          (·.profile_url)).Nodup
    ∧ (People.discover_people_company (fun _ => none)
        (fun _ =>
          [⟨s2p "https://linkedin.com/in/a1", s2p "acme person 1", s2p ""⟩,
           ⟨s2p "https://linkedin.com/in/a2", s2p "acme person 2", s2p ""⟩,
           ⟨s2p "https://linkedin.com/in/a3", s2p "acme person 3", s2p ""⟩,
           ⟨s2p "https://linkedin.com/in/a4", s2p "acme person 4", s2p ""⟩,
           ⟨s2p "https://linkedin.com/in/a5", s2p "acme person 5", s2p ""⟩])
        (s2p "acme") (s2p "https://acme.com") (s2p "acme.com") 2).2.length ≤ 2 + 2 :=
  ⟨by decide,
   (discover_people_bounds _ _ _ _ _ 2 (by decide)).1,
   (discover_people_bounds _ _ _ _ _ 2 (by decide)).2⟩

/-- C2 counterexample: `per_company = 2`, two queries (empty domain), a
provider with 5 distinct valid profile urls per query — the collector keeps 3
rows, exceeding `max_items`, because the second query is still processed after
the cap was reached and appends before re-checking the cap. -/
theorem discover_people_cap_counterexample :
    (People.discover_people_company (fun _ => none)
        (fun _ =>
          [⟨s2p "https://linkedin.com/in/a1", s2p "acme person 1", s2p ""⟩,
           ⟨s2p "https://linkedin.com/in/a2", s2p "acme person 2", s2p ""⟩,
           ⟨s2p "https://linkedin.com/in/a3", s2p "acme person 3", s2p ""⟩,
           ⟨s2p "https://linkedin.com/in/a4", s2p "acme person 4", s2p ""⟩,
           ⟨s2p "https://linkedin.com/in/a5", s2p "acme person 5", s2p ""⟩])
        (s2p "acme") (s2p "") (s2p "") 2).2.length = 3
    ∧ ¬ ((People.discover_people_company (fun _ => none)
        (fun _ =>
          [⟨s2p "https://linkedin.com/in/a1", s2p "acme person 1", s2p ""⟩,
           ⟨s2p "https://linkedin.com/in/a2", s2p "acme person 2", s2p ""⟩,
           ⟨s2p "https://linkedin.com/in/a3", s2p "acme person 3", s2p ""⟩,
           ⟨s2p "https://linkedin.com/in/a4", s2p "acme person 4", s2p ""⟩,
           ⟨s2p "https://linkedin.com/in/a5", s2p "acme person 5", s2p ""⟩])
        (s2p "acme") (s2p "") (s2p "") 2).2.length ≤ 2) :=
  ⟨by decide, by decide⟩

/-!
Response Cache behaviour (C3) and Summarization Adapter behaviour (C9).
-/

/-- C3 amended: after a provider result has been stored in the cache,
`search_web` (of both summarize scripts) returns the stored value without
calling the provider again, even when the stored value is the empty list; the
per-query fetch of `discover_people` does the same only for a non-empty stored
value — an empty stored value is falsy, so the provider is called again. -/
theorem cache_hit_no_refetch :
    (∀ (cache : PyStr → Option (List People.Item)) (provider : PyStr → List People.Item)
        (q : PyStr) (res : List People.Item),
        NA.search_web (cacheStore cache (NA.swKey q) res) provider q = res
        ∧ NA.searchCallsProvider (cacheStore cache (NA.swKey q) res) q = false)
    ∧ (∀ (cache : PyStr → Option (List People.Item)) (provider : PyStr → List People.Item)
        (q : PyStr) (res : List People.Item), res ≠ [] →
        People.fetchRes (cacheStore cache (People.cache_key q) res) provider q = res
        ∧ People.fetchCallsProvider (cacheStore cache (People.cache_key q) res) q = false) := by
  constructor
  · intro cache provider q res
    exact ⟨by simp [NA.search_web, cacheStore],
           by simp [NA.searchCallsProvider, cacheStore]⟩
  · intro cache provider q res hres
    exact ⟨by simp [People.fetchRes, cacheStore, hres],
           by simp [People.fetchCallsProvider, cacheStore, hres]⟩

/-- Witness for C3's amended statement: a stored non-empty people result is
served from cache with no provider call. -/
theorem cache_hit_no_refetch_witness :
    (([⟨s2p "https://linkedin.com/in/x", s2p "t", s2p "s"⟩] : List People.Item) ≠ [])
    ∧ People.fetchRes (cacheStore (fun _ => none) (People.cache_key (s2p "acme q"))
        [⟨s2p "https://linkedin.com/in/x", s2p "t", s2p "s"⟩]) (fun _ => []) (s2p "acme q")
      = [⟨s2p "https://linkedin.com/in/x", s2p "t", s2p "s"⟩]
    ∧ People.fetchCallsProvider (cacheStore (fun _ => none) (People.cache_key (s2p "acme q"))
        [⟨s2p "https://linkedin.com/in/x", s2p "t", s2p "s"⟩]) (s2p "acme q") = false :=
  ⟨by decide,
   (cache_hit_no_refetch.2 (fun _ => none) (fun _ => []) (s2p "acme q")
     [⟨s2p "https://linkedin.com/in/x", s2p "t", s2p "s"⟩] (by decide)).1,
   (cache_hit_no_refetch.2 (fun _ => none) (fun _ => []) (s2p "acme q")
     [⟨s2p "https://linkedin.com/in/x", s2p "t", s2p "s"⟩] (by decide)).2⟩

/-- C3 counterexample: in `discover_people` the cached EMPTY result for a
query is falsy, so `cache_load(key) or google_cse(q)` calls the provider
again — the claim's "does not call the evidence provider again" fails for the
stored-empty case, whose fresh provider result is returned instead. -/
theorem cache_empty_refetch_counterexample :
    People.fetchCallsProvider
        (cacheStore (fun _ => none) (People.cache_key (s2p "acme q")) [])
        (s2p "acme q") = true
    ∧ People.fetchRes (cacheStore (fun _ => none) (People.cache_key (s2p "acme q")) [])
        (fun _ => [⟨s2p "https://linkedin.com/in/x", s2p "t", s2p "s"⟩]) (s2p "acme q")
      = [⟨s2p "https://linkedin.com/in/x", s2p "t", s2p "s"⟩] :=
  ⟨by decide, by decide⟩

/-- C9: neither `summarize_with_openai` can raise: with no credential both
return their fixed missing-credential sentinel whatever the call outcome; with
a credential, a raised request exception maps to the "request failed" sentinel
embedding the exception text, and a non-200 response maps to the
"OpenAI error" sentinel embedding the status code and a body prefix. -/
theorem summarize_never_raises :
    (∀ o : HttpOutcome, NA.summarize_with_openai [] o = NA.missingSentinel)
    ∧ (∀ o : HttpOutcome, Scripts.summarize_with_openai [] o = Scripts.missingSentinel)
    ∧ (∀ (k m : PyStr), k ≠ [] →
        NA.summarize_with_openai k (.exc m) = s2p "OpenAI request failed: " ++ m
        ∧ Scripts.summarize_with_openai k (.exc m) = s2p "OpenAI request failed: " ++ m)
    ∧ (∀ (k : PyStr) (st : Nat) (txt content : PyStr), k ≠ [] → st ≠ 200 →
        NA.summarize_with_openai k (.resp st txt content)
          = s2p "OpenAI error " ++ natPy st ++ s2p ": " ++ txt.take 200
        ∧ Scripts.summarize_with_openai k (.resp st txt content)
          = s2p "OpenAI error " ++ natPy st ++ s2p ": " ++ txt.take 200) := by
  refine ⟨?_, ?_, ?_, ?_⟩
  · intro o; simp [NA.summarize_with_openai]
  · intro o; simp [Scripts.summarize_with_openai]
  · intro k m hk
    exact ⟨by simp [NA.summarize_with_openai, hk],
           by simp [Scripts.summarize_with_openai, hk]⟩
  · intro k st txt content hk hst
    exact ⟨by simp [NA.summarize_with_openai, hk, hst],
           by simp [Scripts.summarize_with_openai, hk, hst]⟩

/-- Witness for C9 at a concrete credential and a 500 response. -/
theorem summarize_never_raises_witness :
    (s2p "sk" ≠ []) ∧ ((500 : Nat) ≠ 200)
    ∧ NA.summarize_with_openai (s2p "sk") (.resp 500 (s2p "oops") (s2p ""))
        = s2p "OpenAI error " ++ natPy 500 ++ s2p ": " ++ (s2p "oops").take 200 :=
  ⟨by decide, by decide,
   (summarize_never_raises.2.2.2 _ _ _ _ (by decide) (by decide)).1⟩
